import Mathlib

/-!
Shallow embedding of the esp-hal SHA peripheral driver
(`src/esp-hal-common/src/sha.rs`), verified against its natural-language
specification.

Modelling choices, fixed throughout:

* Target configuration: a little-endian non-ESP32 chip of the ESP32-C3
  class (`cfg(not(esp32))`, `cfg(esp32c3)`), the configuration exercised by
  the repository's `esp32c3-hal` example.  On that target
  `U32_FROM_BYTES = u32::from_ne_bytes` reads four bytes as a little-endian
  word, `x.to_be()` is a byte swap, `usize` is 32 bits wide, and the
  available algorithm variants are SHA-1, SHA-224 and SHA-256, all with a
  64-byte block.
* Machine integers are `Nat` with explicit `% 2^32` where the source relies
  on wrapping; bytes are `Nat` values below 256.
* The memory-mapped block-input window (`m_mem`) is a 64-byte list; a
  volatile `u32` store at word index `i` overwrites bytes `4*i .. 4*i+3`
  with the little-endian bytes of the stored value.
* The hardware block engine is idealized: a trigger consumes the current
  byte image of the window as one FIPS-180-4 block (start resets the state
  to the algorithm's initial vector first), completes synchronously (the
  busy flag is clear again when the driver polls it), and latches the
  digest state into the output window `h_mem` so that a plain word copy of
  `h_mem` into a byte buffer yields the big-endian digest bytes.
* Every register access of the driver is additionally recorded in an
  effect trace (`Eff`), so that theorems can speak about which stores,
  triggers and busy-waits a call performs.
-/

namespace EspSha

/-- 2^32, the modulus of the 32-bit registers. -/
def M32 : Nat := 4294967296

/-- Read a byte list as a little-endian number (the action of
`u32::from_ne_bytes` on this little-endian target). -/
def fromLEBytes : List Nat → Nat
  | [] => 0
  | b :: bs => b % 256 + 256 * fromLEBytes bs

/-- The four little-endian bytes of a 32-bit value; this is the byte image a
volatile `u32` store leaves in memory on a little-endian bus. -/
def toLEBytes (x : Nat) : List Nat :=
  [x % 256, x / 256 % 256, x / 65536 % 256, x / 16777216 % 256]

/-- The four big-endian bytes of a 32-bit value. -/
def toBEBytes (x : Nat) : List Nat :=
  [x / 16777216 % 256, x / 65536 % 256, x / 256 % 256, x % 256]

/-- Byte swap of a 32-bit value: the action of `u32::to_be()` on a
little-endian target. -/
def swap32 (x : Nat) : Nat :=
  x / 16777216 % 256 + 256 * (x / 65536 % 256) + 65536 * (x / 256 % 256)
    + 16777216 * (x % 256)

/-- Store the little-endian bytes of `val` at byte offsets
`4*idx .. 4*idx+3` of a byte list (one whole-word write). -/
def writeWordMem (mem : List Nat) (idx val : Nat) : List Nat :=
  mem.take (4 * idx) ++ toLEBytes val ++ mem.drop (4 * idx + 4)

/-- Group a byte list into big-endian 32-bit words, dropping a trailing
partial group (the behaviour of `chunks_exact(4)` feeding
`u32::from_be_bytes`). -/
def beWords : List Nat → List Nat
  | a :: b :: c :: d :: rest =>
      (a % 256 * 16777216 + b % 256 * 65536 + c % 256 * 256 + d % 256)
        :: beWords rest
  | _ => []

/-- Big-endian byte serialization of a word list. -/
def beBytesOfWords (ws : List Nat) : List Nat :=
  (ws.map toBEBytes).flatten

/-- Right rotation of a 32-bit value. -/
def rotr (n x : Nat) : Nat :=
  (x / 2 ^ n + x % 2 ^ n * 2 ^ (32 - n)) % M32

/-- Left rotation of a 32-bit value. -/
def rotl (n x : Nat) : Nat :=
  (x * 2 ^ n + x / 2 ^ (32 - n)) % M32

/-- Bitwise complement within 32 bits. -/
def compl32 (x : Nat) : Nat := 4294967295 - x % M32

/-- The SHA-256 round constants of FIPS 180-4. -/
def sha256K : List Nat :=
  [1116352408, 1899447441, 3049323471, 3921009573, 961987163,
   1508970993, 2453635748, 2870763221, 3624381080, 310598401,
   607225278, 1426881987, 1925078388, 2162078206, 2614888103,
   3248222580, 3835390401, 4022224774, 264347078, 604807628,
   770255983, 1249150122, 1555081692, 1996064986, 2554220882,
   2821834349, 2952996808, 3210313671, 3336571891, 3584528711,
   113926993, 338241895, 666307205, 773529912, 1294757372,
   1396182291, 1695183700, 1986661051, 2177026350, 2456956037,
   2730485921, 2820302411, 3259730800, 3345764771, 3516065817,
   3600352804, 4094571909, 275423344, 430227734, 506948616,
   659060556, 883997877, 958139571, 1322822218, 1537002063,
   1747873779, 1955562222, 2024104815, 2227730452, 2361852424,
   2428436474, 2756734187, 3204031479, 3329325298]

/-- The SHA-256 initial hash value. -/
def sha256IV : List Nat :=
  [1779033703, 3144134277, 1013904242, 2773480762, 1359893119,
   2600822924, 528734635, 1541459225]

/-- The SHA-224 initial hash value. -/
def sha224IV : List Nat :=
  [3238371032, 914150663, 812702999, 4144912697, 4290775857,
   1750603025, 1694076839, 3204075428]

/-- The SHA-1 initial hash value. -/
def sha1IV : List Nat :=
  [1732584193, 4023233417, 2562383102, 271733878, 3285377520]

/-- One message-schedule extension step of SHA-256. -/
def sha256Extend (w : List Nat) : List Nat :=
  let n := w.length
  let x15 := w.getD (n - 15) 0
  let x2 := w.getD (n - 2) 0
  let s0 := rotr 7 x15 ^^^ rotr 18 x15 ^^^ x15 / 8
  let s1 := rotr 17 x2 ^^^ rotr 19 x2 ^^^ x2 / 1024
  w ++ [(w.getD (n - 16) 0 + s0 + w.getD (n - 7) 0 + s1) % M32]

/-- One SHA-256 compression round on the eight-word working state. -/
def sha256Round (st : List Nat) (kw : Nat × Nat) : List Nat :=
  match st with
  | [a, b, c, d, e, f, g, h] =>
      let s1 := rotr 6 e ^^^ rotr 11 e ^^^ rotr 25 e
      let ch := e &&& f ^^^ compl32 e &&& g
      let t1 := (h + s1 + ch + kw.1 + kw.2) % M32
      let s0 := rotr 2 a ^^^ rotr 13 a ^^^ rotr 22 a
      let mj := a &&& b ^^^ a &&& c ^^^ b &&& c
      let t2 := (s0 + mj) % M32
      [(t1 + t2) % M32, a, b, c, (d + t1) % M32, e, f, g]
  | _ => st

/-- The SHA-256 (and SHA-224) compression function: absorb one 64-byte
block into the eight-word hash state. -/
def sha256Compress (h0 : List Nat) (block : List Nat) : List Nat :=
  let w := sha256Extend^[48] (beWords (block.take 64))
  let fin := (sha256K.zip w).foldl sha256Round h0
  (h0.zip fin).map (fun p => (p.1 + p.2) % M32)

/-- The SHA-1 round function `f_t`. -/
def sha1F (t b c d : Nat) : Nat :=
  if t < 20 then b &&& c ^^^ compl32 b &&& d
  else if t < 40 then b ^^^ c ^^^ d
  else if t < 60 then b &&& c ^^^ b &&& d ^^^ c &&& d
  else b ^^^ c ^^^ d

/-- The SHA-1 round constant `K_t`. -/
def sha1K (t : Nat) : Nat :=
  if t < 20 then 0x5a827999
  else if t < 40 then 0x6ed9eba1
  else if t < 60 then 0x8f1bbcdc
  else 0xca62c1d6

/-- One message-schedule extension step of SHA-1. -/
def sha1Extend (w : List Nat) : List Nat :=
  let n := w.length
  w ++ [rotl 1 (w.getD (n - 3) 0 ^^^ w.getD (n - 8) 0 ^^^ w.getD (n - 14) 0
        ^^^ w.getD (n - 16) 0)]

/-- One SHA-1 compression round on the five-word working state. -/
def sha1Round (st : List Nat) (tw : Nat × Nat) : List Nat :=
  match st with
  | [a, b, c, d, e] =>
      let t := (rotl 5 a + sha1F tw.1 b c d + e + sha1K tw.1 + tw.2) % M32
      [t, a, rotl 30 b, c, d]
  | _ => st

/-- The SHA-1 compression function: absorb one 64-byte block into the
five-word hash state. -/
def sha1Compress (h0 : List Nat) (block : List Nat) : List Nat :=
  let w := sha1Extend^[64] (beWords (block.take 64))
  let fin := (((List.range 80).zip w).foldl sha1Round h0)
  (h0.zip fin).map (fun p => (p.1 + p.2) % M32)

/-- The algorithm variants available on the modelled target
(`ShaMode` for `esp32c3`). -/
inductive ShaMode
  | SHA1
  | SHA224
  | SHA256
deriving DecidableEq

/-- `OperationMode` of the driver: typical CPU-driven operation or
DMA-driven operation. -/
inductive OperationMode
  | Typical
  | DMA
deriving DecidableEq

/-- `Sha::chunk_length`: the block size in bytes of the variant (64 for
every variant of this target). -/
def chunk_length (m : ShaMode) : Nat :=
  match m with
  | .SHA1 => 64
  | .SHA256 => 64
  | .SHA224 => 64

/-- `Sha::digest_length`: the digest size in bytes of the variant. -/
def digest_length (m : ShaMode) : Nat :=
  match m with
  | .SHA1 => 20
  | .SHA224 => 28
  | .SHA256 => 32

/-- The initial hash value the idealized engine loads on a start trigger. -/
def engineIV (m : ShaMode) : List Nat :=
  match m with
  | .SHA1 => sha1IV
  | .SHA224 => sha224IV
  | .SHA256 => sha256IV

/-- The compression function of the idealized engine. -/
def engineAbsorb (m : ShaMode) (h : List Nat) (block : List Nat) : List Nat :=
  match m with
  | .SHA1 => sha1Compress h block
  | .SHA224 => sha256Compress h block
  | .SHA256 => sha256Compress h block

/-- One recorded hardware access of the driver. -/
inductive Eff
  | mstore (idx val : Nat)
  | trig (first : Bool)
  | trigDma (first : Bool)
  | irqEna
  | dmaBlockNum (n : Nat)
  | busyWait
  | outw (idx val : Nat)
deriving DecidableEq

/-- The state of one `Sha` session together with the idealized hardware it
owns: the session fields of the Rust struct (`mode`, `operation_mode`,
`cursor`, `first_run`, `finished` and the `AlignmentHelper` buffer), the
byte image of the block-input window `m_mem`, and the engine's hash state
plus the ghost list of blocks it has absorbed since the last start. -/
structure ShaState where
  mode : ShaMode
  opMode : OperationMode
  cursor : Nat
  first_run : Bool
  finished : Bool
  buf : List Nat
  mMem : List Nat
  engineH : List Nat
  absorbed : List (List Nat)
  busy : Bool
deriving DecidableEq

/-- `Sha::new`: a fresh session in typical mode (window bytes idealized as
zero). -/
def Sha.new (m : ShaMode) : ShaState :=
  { mode := m, opMode := .Typical, cursor := 0, first_run := true,
    finished := false, buf := [], mMem := List.replicate 64 0,
    engineH := [], absorbed := [], busy := false }

/-- `Sha::is_busy` (non-ESP32): the hardware busy flag. -/
def is_busy (s : ShaState) : Bool := s.busy

/-- `Sha::process_buffer` (non-ESP32): issue the block trigger (`start` on
the first run, `continue` afterwards, clearing `first_run`), upon which the
idealized engine synchronously absorbs the current window image.  In DMA
mode the DMA trigger registers are written instead; the data then flows
through the DMA engine, which this model does not animate. -/
def process_buffer (s : ShaState) : ShaState × List Eff :=
  match s.opMode with
  | .Typical =>
      if s.first_run then
        ({ s with first_run := false, busy := false,
                  engineH := engineAbsorb s.mode (engineIV s.mode) s.mMem,
                  absorbed := [s.mMem] }, [Eff.trig true])
      else
        ({ s with busy := false,
                  engineH := engineAbsorb s.mode s.engineH s.mMem,
                  absorbed := s.absorbed ++ [s.mMem] }, [Eff.trig false])
  | .DMA =>
      if s.first_run then
        ({ s with first_run := false },
         [Eff.trigDma true, Eff.irqEna, Eff.dmaBlockNum (chunk_length s.mode)])
      else
        (s, [Eff.trigDma false])

/-- `AlignmentHelper::flush_to`: if bytes are pending, zero-extend them to
one word and store it; returns the number of pending bytes flushed. -/
def flush_to (s : ShaState) (dstIdx : Nat) : Nat × ShaState × List Eff :=
  if s.buf.length ≠ 0 then
    let word := fromLEBytes (s.buf ++ List.replicate (4 - s.buf.length) 0)
    (s.buf.length,
     { s with mMem := writeWordMem s.mMem dstIdx word, buf := [] },
     [Eff.mstore dstIdx word])
  else
    (0, { s with buf := [] }, [])

/-- Store `count` words, each filled with byte `val`, at consecutive word
indices (the `core::ptr::write_bytes` part of `volatile_write_bytes`). -/
def writeValWords (s : ShaState) (idx val : Nat) : Nat → ShaState × List Eff
  | 0 => (s, [])
  | Nat.succ k =>
      let w := fromLEBytes [val, val, val, val]
      let s' := { s with mMem := writeWordMem s.mMem idx w }
      let r := writeValWords s' (idx + 1) val k
      (r.1, Eff.mstore idx w :: r.2)

/-- `AlignmentHelper::volatile_write_bytes`: complete a pending partial
word with `val` bytes and store it, then store `count` whole words of
`val` bytes. -/
def volatile_write_bytes (s : ShaState) (dstIdx val count : Nat) :
    ShaState × List Eff :=
  if s.buf.length ≠ 0 then
    let word := fromLEBytes (s.buf ++ List.replicate (4 - s.buf.length) val)
    let s1 := { s with mMem := writeWordMem s.mMem dstIdx word, buf := [] }
    let r := writeValWords s1 (dstIdx + 1) val count
    (r.1, Eff.mstore dstIdx word :: r.2)
  else
    writeValWords s dstIdx val count

/-- The grouping of `chunks_exact(4)`: whole four-byte groups in order,
dropping a trailing partial group. -/
def chunks4 : List Nat → List (List Nat)
  | a :: b :: c :: d :: rest => [a, b, c, d] :: chunks4 rest
  | _ => []

/-- The bulk store loop of `aligned_volatile_copy`: store each whole
four-byte group as `U32_FROM_BYTES(group).to_be()` at `dst.add(i)`.  The
source indexes the destination by the group counter `i` alone, without the
offset of a word flushed from the alignment buffer, so `dstIdx` here is
exactly the pointer that was passed in. -/
def storeChunksGo (dstIdx : Nat) :
    ShaState → Nat → List (List Nat) → ShaState × List Eff
  | s, _, [] => (s, [])
  | s, i, c :: cs =>
      let word := swap32 (fromLEBytes c)
      let s' := { s with mMem := writeWordMem s.mMem (dstIdx + i) word }
      let r := storeChunksGo dstIdx s' (i + 1) cs
      (r.1, Eff.mstore (dstIdx + i) word :: r.2)

/-- The tail of `aligned_volatile_copy` after the pending-word handling:
split off what fits before the bound in whole words, store it, recompute
the bound flag (from the bound and the stored byte count alone, as the
source does), and buffer a short remainder. -/
def avcMain (s : ShaState) (dstIdx : Nat) (nsrc : List Nat)
    (dstBound cursorW : Nat) : (List Nat × Bool) × ShaState × List Eff :=
  let n := min (dstBound - 4 * cursorW) (4 * (nsrc.length / 4))
  let toWrite := nsrc.take n
  let remaining := nsrc.drop n
  let r := storeChunksGo dstIdx s 0 (chunks4 toWrite)
  let wasBounded := dstBound - toWrite.length == 0
  if 0 < remaining.length ∧ remaining.length < 4 then
    (([], wasBounded), { r.1 with buf := remaining }, r.2)
  else
    ((remaining, wasBounded), r.1, r.2)

/-- `AlignmentHelper::aligned_volatile_copy`: prepend pending bytes to the
incoming data (storing the completed word, or returning early if the input
ends before the word completes), then bulk-store whole words up to the
bound, buffering a 1–3 byte remainder.  Returns the unconsumed input and
whether the bound was (computed to be) reached. -/
def aligned_volatile_copy (s : ShaState) (dstIdx : Nat) (src : List Nat)
    (dstBound : Nat) : (List Nat × Bool) × ShaState × List Eff :=
  if s.buf.length ≠ 0 then
    let maxFill := 4 - s.buf.length
    let nbuf := src.take (min src.length maxFill)
    let nsrc := src.drop (min src.length maxFill)
    if nbuf.length < maxFill then
      (([], false), { s with buf := s.buf ++ nbuf }, [])
    else
      let word := fromLEBytes (s.buf ++ nbuf)
      let s1 := { s with mMem := writeWordMem s.mMem dstIdx word, buf := [] }
      let e1 := [Eff.mstore dstIdx word]
      if dstBound ≤ 4 then ((nsrc, true), s1, e1)
      else
        let r := avcMain s1 dstIdx nsrc dstBound 1
        (r.1, r.2.1, e1 ++ r.2.2)
  else
    if dstBound ≤ 0 then ((src, true), s, [])
    else avcMain s dstIdx src dstBound 0

/-- `Sha::write_data`: route the incoming bytes through the alignment
helper into the current block window (bounded by the distance to the next
block boundary), advance the cursor by the consumed byte count, and issue
the block trigger if the bound was reached. -/
def write_data (s : ShaState) (incoming : List Nat) :
    List Nat × ShaState × List Eff :=
  let modCursor := s.cursor % chunk_length s.mode
  let r := aligned_volatile_copy s (modCursor / 4) incoming
      (chunk_length s.mode - modCursor)
  let remaining := r.1.1
  let s2 := { r.2.1 with
    cursor := r.2.1.cursor + (incoming.length - remaining.length) }
  if r.1.2 then
    let p := process_buffer s2
    (remaining, p.1, r.2.2 ++ p.2)
  else
    (remaining, s2, r.2.2)

/-- Result of a non-blocking call (`nb::Result<T, Infallible>`). -/
inductive NbRes (α : Type)
  | ok (a : α)
  | wouldBlock
deriving DecidableEq

/-- `Sha::update`: fail with `WouldBlock` if the hardware is busy;
otherwise clear `finished` and write the data, returning the unconsumed
remainder. -/
def update (s : ShaState) (buffer : List Nat) :
    NbRes (List Nat) × ShaState × List Eff :=
  if is_busy s then (.wouldBlock, s, [])
  else
    let r := write_data { s with finished := false } buffer
    (.ok r.1, r.2.1, r.2.2)

/-- `Sha::flush_data`: fail with `WouldBlock` if busy; otherwise flush the
pending partial word (zero-extended) and, if that completed the block,
trigger it. -/
def flush_data (s : ShaState) : NbRes Unit × ShaState × List Eff :=
  if is_busy s then (.wouldBlock, s, [])
  else
    let dstIdx := s.cursor % chunk_length s.mode / 4
    let r := flush_to s dstIdx
    if r.1 ≠ 0 then
      let s2 := { r.2.1 with cursor := r.2.1.cursor + (4 - r.1) }
      if s2.cursor % chunk_length s2.mode == 0 then
        let p := process_buffer s2
        (.ok (), p.1, r.2.2 ++ p.2)
      else
        (.ok (), s2, r.2.2)
    else
      (.ok (), r.2.1, r.2.2)

/-- The digest copy loop of `Sha::finish`: for each of `count` words, read
output-window word `i` (`h_mem`, idealized so that its little-endian byte
image is the big-endian digest) and store it into the caller's byte buffer
at byte offset `4*i`. -/
def copyDigestAux (hw : List Nat) (out : List Nat) :
    Nat → Nat → List Nat × List Eff
  | _, 0 => (out, [])
  | i, Nat.succ k =>
      let v := swap32 (hw.getD i 0)
      let r := copyDigestAux hw (writeWordMem out i v) (i + 1) k
      (r.1, Eff.outw i v :: r.2)

/-- The finalization protocol of `Sha::finish` (the `!self.finished` path):
snapshot the bit length, append `0x80`, flush to word alignment, open an
extra zero block when fewer than `chunk/8` bytes remain, zero-pad to the
length slot, write the big-endian 32-bit length into the last word,
trigger the final block and busy-wait. -/
def finishProtocol (s : ShaState) : ShaState × List Eff :=
  let chunkLen := chunk_length s.mode
  let length := s.cursor * 8 % M32
  let r1 := update s [0x80]
  let r2 := flush_data r1.2.1
  let s2 := r2.2.1
  let modCursor := s2.cursor % chunkLen
  let r3 :=
    if chunkLen - modCursor < chunkLen / 8 then
      let padLen := chunkLen - modCursor
      let ra := volatile_write_bytes s2 (modCursor / 4) 0 (padLen / 4)
      let rb := process_buffer ra.1
      ({ rb.1 with cursor := rb.1.cursor + padLen },
       ra.2 ++ rb.2 ++ [Eff.busyWait])
    else
      (s2, [])
  let s3 := r3.1
  let modCursor2 := s3.cursor % chunkLen
  let padLen2 := chunkLen - modCursor2 - 4
  let r4 := volatile_write_bytes s3 (modCursor2 / 4) 0 (padLen2 / 4)
  let lenWord := swap32 length
  let s4 := { r4.1 with
    mMem := writeWordMem r4.1.mMem (chunkLen / 4 - 1) lenWord }
  let r5 := process_buffer s4
  ({ r5.1 with finished := true },
   r1.2.2 ++ r2.2.2 ++ r3.2 ++ r4.2 ++ [Eff.mstore (chunkLen / 4 - 1) lenWord]
     ++ r5.2 ++ [Eff.busyWait])

/-- `Sha::finish`: fail with `WouldBlock` if busy; run the finalization
protocol unless `finished` is already set; then copy
`min(output.len(), digest_length()) / 4` words of the output window into
the caller's buffer.  Returns the status, the updated caller buffer, the
session state and the effect trace. -/
def finish (s : ShaState) (output : List Nat) :
    NbRes Unit × List Nat × ShaState × List Eff :=
  if is_busy s then (.wouldBlock, output, s, [])
  else
    let p := if s.finished then (s, ([] : List Eff)) else finishProtocol s
    let w := min (digest_length p.1.mode) output.length / 4
    let c := copyDigestAux p.1.engineH output 0 w
    (.ok (), c.1, p.1, p.2 ++ c.2)

/-- Drive a session with `update`, resubmitting the unconsumed remainder
until the input is fully consumed (fuelled; busy rejections resubmit the
same buffer, as `nb::block!` would). -/
def updateLoop : Nat → ShaState → List Nat → ShaState
  | 0, s, _ => s
  | Nat.succ fuel, s, buffer =>
      match update s buffer with
      | (.ok rem, s', _) => if rem.isEmpty then s' else updateLoop fuel s' rem
      | (.wouldBlock, s', _) => updateLoop fuel s' buffer

/-- Hash `msg` on the session `s`: drive `update` to consumption, then
`finish` into a fresh zeroed buffer of `outLen` bytes.  Returns the filled
buffer and the final session state. -/
def runFrom (s : ShaState) (msg : List Nat) (outLen : Nat) :
    List Nat × ShaState :=
  let s1 := updateLoop (msg.length + 1) s msg
  let r := finish s1 (List.replicate outLen 0)
  (r.2.1, r.2.2.1)

/-- Hash `msg` on a fresh session of variant `m`. -/
def driverFinal (m : ShaMode) (msg : List Nat) (outLen : Nat) :
    List Nat × ShaState :=
  runFrom (Sha.new m) msg outLen

/-- Feed a list of chunks through successive `update` calls, collecting
the session state and the concatenated effect trace. -/
def feedChunks : ShaState → List (List Nat) → ShaState × List Eff
  | s, [] => (s, [])
  | s, c :: cs =>
      let r := update s c
      let r' := feedChunks r.2.1 cs
      (r'.1, r.2.2 ++ r'.2)

/-- Hash a message fed as the given chunk sequence on a fresh session of
variant `m`, finishing into a zeroed buffer of `outLen` bytes. -/
def chunkedFinal (m : ShaMode) (chunks : List (List Nat)) (outLen : Nat) :
    List Nat :=
  (finish (feedChunks (Sha.new m) chunks).1 (List.replicate outLen 0)).2.1

/-- The eight big-endian bytes of a 64-bit value. -/
def beBytes8 (n : Nat) : List Nat :=
  [n / 2 ^ 56 % 256, n / 2 ^ 48 % 256, n / 2 ^ 40 % 256, n / 2 ^ 32 % 256,
   n / 2 ^ 24 % 256, n / 2 ^ 16 % 256, n / 2 ^ 8 % 256, n % 256]

/-- Modelled from the spec: the FIPS-180-4 padding of a message for a
64-byte-block algorithm — the message, one `0x80` byte, the least number
of zero bytes reaching 56 mod 64, and the bit length as a 64-bit
big-endian integer.  The repository uses a software hash only as an
external verification reference, so this reference padding is taken from
the spec's words, not from driver code. -/
def fipsPad (msg : List Nat) : List Nat :=
  msg ++ [0x80] ++ List.replicate ((119 - msg.length % 64) % 64) 0
    ++ beBytes8 (msg.length * 8)

/-- Split a byte list into consecutive 64-byte blocks (with a structural
fuel argument so that the definition evaluates inside the kernel). -/
def blocksOf64Go : Nat → List Nat → List (List Nat)
  | 0, _ => []
  | Nat.succ _, [] => []
  | Nat.succ k, l => l.take 64 :: blocksOf64Go k (l.drop 64)

/-- Split a byte list into consecutive 64-byte blocks. -/
def blocksOf64 (l : List Nat) : List (List Nat) :=
  blocksOf64Go l.length l

/-- Modelled from the spec: the reference FIPS-180-4 SHA-256 digest of a
message, used as the verification oracle for digests produced by the
driver model. -/
def sha256Spec (msg : List Nat) : List Nat :=
  beBytesOfWords ((blocksOf64 (fipsPad msg)).foldl sha256Compress sha256IV)

/-- One direction of a DMA channel as the driver observes it: its
completion flag, its error flag, and the outcome its `prepare_transfer`
collaborator call would report (`none` meaning success). -/
structure ChannelSide where
  done : Bool
  error : Bool
  prepareResult : Option Unit
deriving DecidableEq

/-- A DMA channel: a transmit side and a receive side. -/
structure DmaChannel where
  tx : ChannelSide
  rx : ChannelSide
deriving DecidableEq

/-- `ShaDma`: a DMA-capable SHA instance owning the session and the
channel. -/
structure ShaDma where
  sha : ShaState
  channel : DmaChannel
deriving DecidableEq

/-- `Sha::with_dma`: initialize the channel and switch the session's
operation mode to DMA. -/
def with_dma (s : ShaState) (channel : DmaChannel) : ShaDma :=
  { sha := { s with opMode := .DMA }, channel := channel }

/-- `ShaDmaTransferRxTx`: an in-flight DMA transfer owning the instance
and both caller buffers. -/
structure ShaDmaTransferRxTx (R T : Type) where
  sha_dma : ShaDma
  rbuffer : R
  tbuffer : T
deriving DecidableEq

/-- `ShaDmaTransferRxTx::wait`: move the buffers and the SHA instance back
out of the transfer object and return them. -/
def ShaDmaTransferRxTx.wait (t : ShaDmaTransferRxTx R T) : R × T × ShaDma :=
  (t.rbuffer, t.tbuffer, t.sha_dma)

/-- `ShaDmaTransferRxTx::is_done`: both channel sides report completion. -/
def ShaDmaTransferRxTx.is_done (t : ShaDmaTransferRxTx R T) : Bool :=
  t.sha_dma.channel.tx.done && t.sha_dma.channel.rx.done

/-- `ShaDmaTransfer`: an in-flight DMA transfer owning the instance and
one caller buffer. -/
structure ShaDmaTransfer (B : Type) where
  sha_dma : ShaDma
  buffer : B
deriving DecidableEq

/-- `ShaDmaTransfer::wait`: move the buffer and the SHA instance back out
of the transfer object and return them. -/
def ShaDmaTransfer.wait (t : ShaDmaTransfer B) : B × ShaDma :=
  (t.buffer, t.sha_dma)

/-- `ShaDmaTransfer::is_done`: both channel sides report completion. -/
def ShaDmaTransfer.is_done (t : ShaDmaTransfer B) : Bool :=
  t.sha_dma.channel.tx.done && t.sha_dma.channel.rx.done

/-- `MAX_DMA_SIZE`, the hardware descriptor limit in bytes. -/
def MAX_DMA_SIZE : Nat := 32736

/-- The driver's `Error` enum. -/
inductive Error
  | dmaError
  | maxDmaTransferSizeExceeded
  | unknown
deriving DecidableEq

/-- Result of a fallible DMA call. -/
inductive DmaRes (α : Type)
  | ok (a : α)
  | err (e : Error)
deriving DecidableEq

/-- One recorded channel/register access of the DMA path. -/
inductive DmaEff
  | isDoneQuery
  | prepareRx (len : Nat)
  | clearIrq
deriving DecidableEq

/-- `ShaDma::start_read_bytes_dma`: query `rx.is_done()`, prepare the
receive side of the channel (propagating its error), then clear the DMA
interrupts via the `clear_irq` register. -/
def start_read_bytes_dma (d : ShaDma) (len : Nat) :
    DmaRes Unit × List DmaEff :=
  match d.channel.rx.prepareResult with
  | some _ => (.err .dmaError, [DmaEff.isDoneQuery, DmaEff.prepareRx len])
  | none =>
      (.ok (),
       [DmaEff.isDoneQuery, DmaEff.prepareRx len, DmaEff.clearIrq])

/-- `ShaDma::dma_read`: reject buffers larger than `MAX_DMA_SIZE` before
touching any hardware state; otherwise start the receive transfer and
return the transfer object owning the buffer and the instance. -/
def dma_read (d : ShaDma) (words : List Nat) :
    DmaRes (ShaDmaTransfer (List Nat)) × List DmaEff :=
  if words.length > MAX_DMA_SIZE then
    (.err .maxDmaTransferSizeExceeded, [])
  else
    let r := start_read_bytes_dma d words.length
    match r.1 with
    | .err e => (.err e, r.2)
    | .ok _ => (.ok { sha_dma := d, buffer := words }, r.2)

/-- A DMA channel with both sides idle, no error and a succeeding
`prepare_transfer`. -/
def idleChannel : DmaChannel :=
  { tx := { done := false, error := false, prepareResult := none },
    rx := { done := false, error := false, prepareResult := none } }

/-- A sample DMA-capable SHA instance. -/
def sampleShaDma : ShaDma :=
  with_dma (Sha.new .SHA256) idleChannel

/-- The digest bytes delivered for words `i, i+1, …, i+c-1` of the hash
state: each word's big-endian bytes in order. -/
def digestSlice (hw : List Nat) : Nat → Nat → List Nat
  | _, 0 => []
  | i, Nat.succ k => toBEBytes (hw.getD i 0) ++ digestSlice hw (i + 1) k

/-- A finished idle SHA-256 session whose output window holds the initial
vector (any fixed digest works for the idempotence statements). -/
def doneState : ShaState :=
  { Sha.new .SHA256 with finished := true, engineH := sha256IV }

/-- An in-flight RxTx transfer whose receive side has its error flag set
while neither side reports completion. -/
def errTransfer : ShaDmaTransferRxTx (List Nat) (List Nat) :=
  { sha_dma :=
      with_dma (Sha.new .SHA256)
        { tx := { done := false, error := false, prepareResult := none },
          rx := { done := false, error := true, prepareResult := none } },
    rbuffer := [1, 2], tbuffer := [3] }

end EspSha

namespace EspSha

set_option maxRecDepth 10000

/-- The block size is 64 bytes for every variant of this target. -/
theorem chunk_length_eq (m : ShaMode) : chunk_length m = 64 := by
  cases m <;> rfl

/-- Sanity anchor: on the 256-bit variant the driver model hashes `"abc"`
to the reference digest, and the reference digest is the published FIPS
test vector `ba7816bf…` (the spec's concrete scenario 2). -/
theorem sha_abc_reference_vector :
    (driverFinal .SHA256 [0x61, 0x62, 0x63] 32).1 = sha256Spec [0x61, 0x62, 0x63]
      ∧ sha256Spec [0x61, 0x62, 0x63]
      = [0xba, 0x78, 0x16, 0xbf, 0x8f, 0x01, 0xcf, 0xea,
         0x41, 0x41, 0x40, 0xde, 0x5d, 0xae, 0x22, 0x23,
         0xb0, 0x03, 0x61, 0xa3, 0x96, 0x17, 0x7a, 0x9c,
         0xb4, 0x10, 0xff, 0x61, 0xf2, 0x00, 0x15, 0xad] := by decide

/-- Sanity anchor: the empty message hashes to the reference digest
`e3b0c442…` through the driver model (the spec's concrete scenario 1). -/
theorem sha_empty_reference_vector :
    (driverFinal .SHA256 [] 32).1 = sha256Spec []
      ∧ sha256Spec []
      = [0xe3, 0xb0, 0xc4, 0x42, 0x98, 0xfc, 0x1c, 0x14,
         0x9a, 0xfb, 0xf4, 0xc8, 0x99, 0x6f, 0xb9, 0x24,
         0x27, 0xae, 0x41, 0xe4, 0x64, 0x9b, 0x93, 0x4c,
         0xa4, 0x95, 0x99, 0x1b, 0x78, 0x52, 0xb8, 0x55] := by decide

/-- Sanity anchor: a 56-byte message exercises the insufficient-space
branch of `finish` (an extra zero-padded block for the length field) and
still matches the reference digest (the spec's concrete scenario 3; the
message bytes are all equal, so the bulk-path byte-order defect is
invisible here). -/
theorem sha_56_byte_boundary_vector :
    (driverFinal .SHA256 (List.replicate 56 0x61) 32).1
      = sha256Spec (List.replicate 56 0x61) := by decide

/-- C1: REFUTED by the code.  On the 256-bit variant, hashing the
four-byte message `"abcd"` with a single `update` call followed by
`finish` stores the first message word byte-swapped (the bulk path of
`aligned_volatile_copy` applies `.to_be()` to `U32_FROM_BYTES`, while the
buffered and flush paths do not), so the block the engine absorbs is not
the FIPS-180-4 padded message and the digest is not the reference digest —
although the same message fed one byte at a time (never touching the bulk
path) does hash to the reference digest. -/
theorem sha_digest_deviates_from_reference_on_abcd :
    (driverFinal .SHA256 [0x61, 0x62, 0x63, 0x64] 32).1
      ≠ sha256Spec [0x61, 0x62, 0x63, 0x64]
    ∧ (driverFinal .SHA256 [0x61, 0x62, 0x63, 0x64] 32).2.absorbed.flatten
      ≠ fipsPad [0x61, 0x62, 0x63, 0x64]
    ∧ chunkedFinal .SHA256 [[0x61], [0x62], [0x63], [0x64]] 32
      = sha256Spec [0x61, 0x62, 0x63, 0x64] := by decide

/-- C2: REFUTED by the code.  `finish` sets only the `finished` flag: after
hashing `"abc"` the cursor is 4 (not 0) and `first_run` is false (not
true), and a second message hashed on the same session afterwards yields a
different digest than the same message hashed on a fresh session — the
session is not reset, contradicting the claim (and the source's own doc
comment on `finish`). -/
theorem finish_does_not_reset_session :
    (driverFinal .SHA256 [0x61, 0x62, 0x63] 32).2.cursor = 4
    ∧ (driverFinal .SHA256 [0x61, 0x62, 0x63] 32).2.first_run = false
    ∧ (runFrom (driverFinal .SHA256 [0x61, 0x62, 0x63] 32).2
        [0x78, 0x79, 0x7a] 32).1
      ≠ (driverFinal .SHA256 [0x78, 0x79, 0x7a] 32).1 := by decide

/-- C4: REFUTED by the code.  Writing the eight bytes `"abcdefgh"` as the
chunks `"ab"`, `"cdefgh"` produces the word-store sequence
`[(0, 0x64636261), (0, 0x65666768)]` — the completed buffered word is
stored without the byte swap of the bulk path, and the following bulk
store ignores the one-word cursor offset and overwrites index 0 — while a
single call stores `[(0, 0x61626364), (1, 0x65666768)]`: different indices
and different values. -/
theorem chunked_write_changes_word_store_sequence :
    (feedChunks (Sha.new .SHA256)
        [[0x61, 0x62], [0x63, 0x64, 0x65, 0x66, 0x67, 0x68]]).2
      = [Eff.mstore 0 0x64636261, Eff.mstore 0 0x65666768]
    ∧ (feedChunks (Sha.new .SHA256)
        [[0x61, 0x62, 0x63, 0x64, 0x65, 0x66, 0x67, 0x68]]).2
      = [Eff.mstore 0 0x61626364, Eff.mstore 1 0x65666768]
    ∧ ([Eff.mstore 0 0x64636261, Eff.mstore 0 0x65666768] : List Eff)
      ≠ [Eff.mstore 0 0x61626364, Eff.mstore 1 0x65666768] := by decide

/-- C6: `update` and `finish` return `WouldBlock` exactly when the busy
flag is set at entry; in that case the session state, the caller's buffer
and the hardware are untouched; when the flag is clear both calls succeed
- no input is ever rejected as malformed. -/
theorem would_block_iff_busy (s : ShaState) (buffer out : List Nat) :
    ((update s buffer).1 = NbRes.wouldBlock ↔ s.busy = true)
    ∧ (s.busy = true → update s buffer = (.wouldBlock, s, []))
    ∧ (s.busy = false → (update s buffer).1
        = .ok (write_data { s with finished := false } buffer).1)
    ∧ ((finish s out).1 = NbRes.wouldBlock ↔ s.busy = true)
    ∧ (s.busy = true → finish s out = (.wouldBlock, out, s, []))
    ∧ (s.busy = false → (finish s out).1 = .ok ()) := by
  cases hb : s.busy <;> simp [update, finish, is_busy, hb]

/-- Witness for `would_block_iff_busy` at a concrete busy session. -/
theorem would_block_iff_busy_witness :
    update { Sha.new .SHA256 with busy := true } [1]
      = (.wouldBlock, { Sha.new .SHA256 with busy := true }, []) :=
  (would_block_iff_busy { Sha.new .SHA256 with busy := true } [1] []).2.1 rfl

/-- C7: REFUTED by the code.  A transfer whose receive side has its error
flag set (and neither side done) still has `wait` return the plain
resource triple immediately: `wait` neither polls `is_done` nor inspects
any error flag, and its result type carries no error kind at all. -/
theorem dma_wait_ignores_error_flags :
    errTransfer.sha_dma.channel.rx.error = true
    ∧ ShaDmaTransferRxTx.is_done errTransfer = false
    ∧ ShaDmaTransferRxTx.wait errTransfer
      = ([1, 2], [3], errTransfer.sha_dma) := by decide

/-- C7 (amended): `wait` unconditionally returns ownership of the caller's
buffer(s) together with the SHA instance (session and channel), for both
transfer shapes, performing no polling and reporting no error; `is_done`
is true exactly when both channel sides report completion. -/
theorem dma_wait_returns_resources_unconditionally (R T B : Type)
    (t : ShaDmaTransferRxTx R T) (u : ShaDmaTransfer B) :
    ShaDmaTransferRxTx.wait t = (t.rbuffer, t.tbuffer, t.sha_dma)
    ∧ (ShaDmaTransferRxTx.is_done t = true
        ↔ t.sha_dma.channel.tx.done = true ∧ t.sha_dma.channel.rx.done = true)
    ∧ ShaDmaTransfer.wait u = (u.buffer, u.sha_dma)
    ∧ (ShaDmaTransfer.is_done u = true
        ↔ u.sha_dma.channel.tx.done = true
          ∧ u.sha_dma.channel.rx.done = true) := by
  refine ⟨rfl, ?_, rfl, ?_⟩ <;>
    simp [ShaDmaTransferRxTx.is_done, ShaDmaTransfer.is_done]

/-- C8: `dma_read` validates the buffer length against `MAX_DMA_SIZE`
(32736): any length up to and including the limit passes validation (the
size-exceeded error is never produced), while any strictly greater length
fails with `MaxDmaTransferSizeExceeded` with an empty effect trace — no
channel preparation, no interrupt-clear register write, no state change. -/
theorem dma_read_validates_size (d : ShaDma) (words : List Nat) :
    (words.length ≤ MAX_DMA_SIZE →
      (dma_read d words).1 ≠ DmaRes.err Error.maxDmaTransferSizeExceeded)
    ∧ (MAX_DMA_SIZE < words.length →
      dma_read d words = (.err .maxDmaTransferSizeExceeded, [])) := by
  constructor <;> intro h
  · simp only [dma_read, start_read_bytes_dma, Nat.not_lt.mpr h, gt_iff_lt,
      if_false]
    cases hp : d.channel.rx.prepareResult <;> simp [hp]
  · simp [dma_read, h]

/-- Witness for `dma_read_validates_size` at the boundary lengths 32736
and 32737. -/
theorem dma_read_validates_size_witness :
    (dma_read sampleShaDma (List.replicate 32736 0)).1
      ≠ DmaRes.err Error.maxDmaTransferSizeExceeded
    ∧ dma_read sampleShaDma (List.replicate 32737 0)
      = (.err .maxDmaTransferSizeExceeded, []) :=
  ⟨(dma_read_validates_size sampleShaDma (List.replicate 32736 0)).1
      (by rw [List.length_replicate]; decide),
   (dma_read_validates_size sampleShaDma (List.replicate 32737 0)).2
      (by rw [List.length_replicate]; decide)⟩

theorem lePack_bytes (p q r t : Nat) (hp : p < 256) (hq : q < 256)
    (hr : r < 256) (ht : t < 256) :
    toLEBytes (p + 256 * q + 65536 * r + 16777216 * t) = [p, q, r, t] := by
  simp only [toLEBytes, List.cons.injEq, and_true]
  omega

theorem toLEBytes_swap32 (x : Nat) : toLEBytes (swap32 x) = toBEBytes x := by
  rw [swap32, lePack_bytes _ _ _ _ (Nat.mod_lt _ (by norm_num))
    (Nat.mod_lt _ (by norm_num)) (Nat.mod_lt _ (by norm_num))
    (Nat.mod_lt _ (by norm_num))]
  rfl

theorem toLEBytes_length (v : Nat) : (toLEBytes v).length = 4 := by
  simp [toLEBytes]

theorem writeWordMem_length (mem : List Nat) (i v : Nat)
    (h : 4 * i + 4 ≤ mem.length) :
    (writeWordMem mem i v).length = mem.length := by
  simp only [writeWordMem, List.length_append, List.length_take,
    List.length_drop, toLEBytes_length]
  omega

theorem writeWordMem_take (mem : List Nat) (i v : Nat)
    (h : 4 * i + 4 ≤ mem.length) :
    (writeWordMem mem i v).take (4 * i + 4)
      = mem.take (4 * i) ++ toLEBytes v := by
  have hA : (mem.take (4 * i)).length = 4 * i := by
    simp only [List.length_take]
    omega
  rw [writeWordMem, List.append_assoc]
  have h1 : 4 * i + 4 = (mem.take (4 * i)).length + 4 := by omega
  rw [h1, List.take_append]
  have h2 : (4 : Nat) = (toLEBytes v).length + 0 := by
    rw [toLEBytes_length]
  rw [h2, List.take_append]
  simp

theorem writeWordMem_drop (mem : List Nat) (i v m : Nat)
    (hm : 4 * i + 4 ≤ m) (h : 4 * i + 4 ≤ mem.length) :
    (writeWordMem mem i v).drop m = mem.drop m := by
  have hAB : (mem.take (4 * i) ++ toLEBytes v).length = 4 * i + 4 := by
    simp only [List.length_append, List.length_take, toLEBytes_length]
    omega
  rw [writeWordMem, List.drop_append_eq_append_drop, hAB]
  have h1 : (mem.take (4 * i) ++ toLEBytes v).drop m = [] := by
    apply List.drop_eq_nil_of_le
    omega
  rw [h1, List.nil_append, List.drop_drop]
  congr 1
  omega

theorem copyDigestAux_effects (hw : List Nat) (c : Nat) :
    ∀ (i : Nat) (out : List Nat) (e : Eff),
      e ∈ (copyDigestAux hw out i c).2 → ∃ j v, e = Eff.outw j v := by
  induction c with
  | zero => intro i out e he; simp [copyDigestAux] at he
  | succ k ih =>
      intro i out e he
      simp only [copyDigestAux, List.mem_cons] at he
      rcases he with h | h
      · exact ⟨i, _, h⟩
      · exact ih (i + 1) _ e h

theorem copyDigestAux_out (hw : List Nat) (c : Nat) :
    ∀ (i : Nat) (out : List Nat), 4 * (i + c) ≤ out.length →
      (copyDigestAux hw out i c).1
        = out.take (4 * i) ++ digestSlice hw i c ++ out.drop (4 * (i + c)) := by
  induction c with
  | zero =>
      intro i out h
      simp [copyDigestAux, digestSlice, List.take_append_drop]
  | succ k ih =>
      intro i out h
      have hlen : 4 * i + 4 ≤ out.length := by omega
      have hwl : (writeWordMem out i (swap32 (hw.getD i 0))).length
          = out.length := writeWordMem_length out i _ hlen
      have hih := ih (i + 1) (writeWordMem out i (swap32 (hw.getD i 0)))
        (by rw [hwl]; omega)
      simp only [copyDigestAux, hih, digestSlice]
      have ht : (writeWordMem out i (swap32 (hw.getD i 0))).take (4 * (i + 1))
          = out.take (4 * i) ++ toBEBytes (hw.getD i 0) := by
        have he : 4 * (i + 1) = 4 * i + 4 := by ring
        rw [he, writeWordMem_take out i _ hlen, toLEBytes_swap32]
      have hd : (writeWordMem out i (swap32 (hw.getD i 0))).drop
            (4 * (i + 1 + k))
          = out.drop (4 * (i + 1 + k)) := by
        apply writeWordMem_drop
        · omega
        · exact hlen
      rw [ht, hd]
      have harith : i + 1 + k = i + (k + 1) := by ring
      rw [harith]
      simp [List.append_assoc]

theorem digestSlice_length (hw : List Nat) (c : Nat) :
    ∀ i, (digestSlice hw i c).length = 4 * c := by
  induction c with
  | zero => intro i; simp [digestSlice]
  | succ k ih =>
      intro i
      simp only [digestSlice, List.length_append, ih (i + 1), toBEBytes,
        List.length_cons, List.length_nil]
      omega

theorem digestSlice_take (hw : List Nat) (c : Nat) :
    ∀ (c' i : Nat), c' ≤ c →
      (digestSlice hw i c).take (4 * c') = digestSlice hw i c' := by
  induction c with
  | zero =>
      intro c' i h
      interval_cases c'
      simp [digestSlice]
  | succ k ih =>
      intro c' i h
      cases c' with
      | zero => simp [digestSlice]
      | succ c'' =>
          simp only [digestSlice]
          have h4 : (toBEBytes (hw.getD i 0)).length = 4 := by simp [toBEBytes]
          have he : 4 * (c'' + 1) = (toBEBytes (hw.getD i 0)).length
              + 4 * c'' := by rw [h4]; ring
          rw [he, List.take_append, ih c'' (i + 1) (by omega)]

/-- The digest-copy characterization of `finish` on a finished idle
session: exactly `4 * (min (output.len) (digest_length) / 4)` digest bytes
are written, the rest of the buffer is untouched. -/
theorem finish_copy_spec (s : ShaState) (out : List Nat)
    (hf : s.finished = true) (hb : s.busy = false) :
    (finish s out).2.1
      = digestSlice s.engineH 0 (min (digest_length s.mode) out.length / 4)
        ++ out.drop (4 * (min (digest_length s.mode) out.length / 4)) := by
  have hcopy := copyDigestAux_out s.engineH
    (min (digest_length s.mode) out.length / 4) 0 out
    (by
      have h1 := Nat.div_mul_le_self (min (digest_length s.mode) out.length) 4
      have h2 := Nat.min_le_right (digest_length s.mode) out.length
      omega)
  simp only [finish, is_busy, hb, Bool.false_eq_true, if_false, hf, if_true]
  simp only [Nat.zero_add] at hcopy
  simp [hcopy]




/-- C9 (amended): for every output buffer length and every variant, the
digest-copy step of `finish` (run here on a finished idle session) writes
exactly `4 * (min (output.len) (digest_length) / 4)` bytes — the
word-granular truncation of the claimed `min(output.len, digest_length)` —
from the output register window into the caller's buffer (each word
delivered as its big-endian bytes, the generation's byte-order policy),
and leaves the bytes of the buffer beyond that count unchanged. -/
theorem finish_digest_copy_word_granular (s : ShaState) (out : List Nat)
    (hf : s.finished = true) (hb : s.busy = false) :
    (finish s out).2.1
      = digestSlice s.engineH 0 (min (digest_length s.mode) out.length / 4)
        ++ out.drop (4 * (min (digest_length s.mode) out.length / 4)) :=
  finish_copy_spec s out hf hb

theorem storeChunksGo_state (dstIdx : Nat) (cs : List (List Nat)) :
    ∀ (s : ShaState) (i : Nat),
      ∃ m, (storeChunksGo dstIdx s i cs).1 = { s with mMem := m } := by
  induction cs with
  | nil => intro s i; exact ⟨s.mMem, rfl⟩
  | cons c cs ih =>
      intro s i
      obtain ⟨m, hm⟩ := ih
        { s with mMem := writeWordMem s.mMem (dstIdx + i) (swap32 (fromLEBytes c)) }
        (i + 1)
      exact ⟨m, by simp only [storeChunksGo, hm]⟩

theorem storeChunksGo_effects (dstIdx : Nat) (cs : List (List Nat)) :
    ∀ (s : ShaState) (i : Nat) (e : Eff),
      e ∈ (storeChunksGo dstIdx s i cs).2 → ∃ j v, e = Eff.mstore j v := by
  induction cs with
  | nil => intro s i e he; simp [storeChunksGo] at he
  | cons c cs ih =>
      intro s i e he
      simp only [storeChunksGo, List.mem_cons] at he
      rcases he with h | h
      · exact ⟨_, _, h⟩
      · exact ih _ (i + 1) e h

theorem avcMain_eq (s : ShaState) (input : List Nat) (dstIdx dstBound : Nat) :
    avcMain s dstIdx input dstBound 0
      = if 0 < input.length - min dstBound (4 * (input.length / 4))
            ∧ input.length - min dstBound (4 * (input.length / 4)) < 4 then
          (([], dstBound - min dstBound (4 * (input.length / 4)) == 0),
           { (storeChunksGo dstIdx s 0 (chunks4
              (input.take (min dstBound (4 * (input.length / 4)))))).1
              with buf := input.drop (min dstBound (4 * (input.length / 4))) },
           (storeChunksGo dstIdx s 0 (chunks4
              (input.take (min dstBound (4 * (input.length / 4)))))).2)
        else
          ((input.drop (min dstBound (4 * (input.length / 4))),
            dstBound - min dstBound (4 * (input.length / 4)) == 0),
           (storeChunksGo dstIdx s 0 (chunks4
              (input.take (min dstBound (4 * (input.length / 4)))))).1,
           (storeChunksGo dstIdx s 0 (chunks4
              (input.take (min dstBound (4 * (input.length / 4)))))).2) := by
  have hnle : min dstBound (4 * (input.length / 4)) ≤ input.length := by
    have h1 := Nat.div_mul_le_self input.length 4
    rcases Nat.le_total dstBound (4 * (input.length / 4)) with h | h
    · rw [Nat.min_eq_left h]; omega
    · rw [Nat.min_eq_right h]; omega
  simp only [avcMain, Nat.mul_zero, Nat.sub_zero, List.length_take,
    List.length_drop, Nat.min_eq_left hnle]

theorem avcMain_empty (s : ShaState) (input : List Nat) (dstIdx dstBound : Nat)
    (hb4 : dstBound % 4 = 0) :
    (avcMain s dstIdx input dstBound 0).1.1
        = input.drop (if input.length ≤ dstBound + 3 then input.length
            else dstBound)
    ∧ ((avcMain s dstIdx input dstBound 0).1.2 = true
        ↔ dstBound ≤ input.length)
    ∧ input.length - (avcMain s dstIdx input dstBound 0).1.1.length
        = (if input.length ≤ dstBound + 3 then input.length else dstBound)
    ∧ (avcMain s dstIdx input dstBound 0).2.1.cursor = s.cursor
    ∧ (avcMain s dstIdx input dstBound 0).2.1.first_run = s.first_run
    ∧ (avcMain s dstIdx input dstBound 0).2.1.opMode = s.opMode
    ∧ (∀ e ∈ (avcMain s dstIdx input dstBound 0).2.2,
        ∃ j v, e = Eff.mstore j v) := by
  have hdm := Nat.div_add_mod input.length 4
  have hmod : input.length % 4 < 4 := Nat.mod_lt _ (by norm_num)
  have hq4 := Nat.div_mul_le_self input.length 4
  obtain ⟨m, hm⟩ := storeChunksGo_state dstIdx
    (chunks4 (input.take (min dstBound (4 * (input.length / 4))))) s 0
  have heff := storeChunksGo_effects dstIdx
    (chunks4 (input.take (min dstBound (4 * (input.length / 4))))) s 0
  rw [avcMain_eq]
  by_cases hrem : 0 < input.length - min dstBound (4 * (input.length / 4))
      ∧ input.length - min dstBound (4 * (input.length / 4)) < 4
  · rw [if_pos hrem]
    have hn : min dstBound (4 * (input.length / 4)) = 4 * (input.length / 4)
        := by
      rcases Nat.le_total dstBound (4 * (input.length / 4)) with h | h
      · rw [Nat.min_eq_left h] at hrem ⊢
        omega
      · rw [Nat.min_eq_right h]
    have hk : input.length ≤ dstBound + 3 := by
      rcases Nat.le_total dstBound (4 * (input.length / 4)) with h | h
      · rw [Nat.min_eq_left h] at hrem; omega
      · omega
    rw [if_pos hk]
    refine ⟨(List.drop_length input).symm, ?_, by simp, ?_, ?_, ?_, ?_⟩
    · show ((dstBound - min dstBound (4 * (input.length / 4)) == 0) = true)
        ↔ dstBound ≤ input.length
      simp only [beq_iff_eq]
      rw [hn] at hrem ⊢
      omega
    · rw [hm]
    · rw [hm]
    · rw [hm]
    · exact fun e he => heff e he
  · rw [if_neg hrem]
    have hcase : (input.length ≤ dstBound + 3
          ∧ min dstBound (4 * (input.length / 4)) = input.length)
        ∨ (¬ input.length ≤ dstBound + 3
          ∧ min dstBound (4 * (input.length / 4)) = dstBound) := by
      rcases Nat.le_total dstBound (4 * (input.length / 4)) with h | h
      · rw [Nat.min_eq_left h] at hrem ⊢
        omega
      · rw [Nat.min_eq_right h] at hrem ⊢
        omega
    rcases hcase with ⟨hk, hn⟩ | ⟨hk, hn⟩
    · rw [hn] at hm heff
      rw [if_pos hk, hn]
      refine ⟨rfl, ?_, ?_, ?_, ?_, ?_, ?_⟩
      · simp only [beq_iff_eq]
        omega
      · simp only [List.length_drop]
        omega
      · rw [hm]
      · rw [hm]
      · rw [hm]
      · exact fun e he => heff e he
    · rw [hn] at hm heff
      rw [if_neg hk, hn]
      refine ⟨rfl, ?_, ?_, ?_, ?_, ?_, ?_⟩
      · simp only [beq_iff_eq]
        omega
      · simp only [List.length_drop]
        omega
      · rw [hm]
      · rw [hm]
      · rw [hm]
      · exact fun e he => heff e he

theorem avc_empty_buf (s : ShaState) (d : Nat) (src : List Nat) (b : Nat)
    (hbuf : s.buf = []) (hbpos : 0 < b) :
    aligned_volatile_copy s d src b = avcMain s d src b 0 := by
  simp [aligned_volatile_copy, hbuf, Nat.not_le.mpr hbpos]

theorem process_buffer_cursor (s : ShaState) :
    (process_buffer s).1.cursor = s.cursor := by
  rcases hop : s.opMode <;> rcases hfr : s.first_run <;>
    simp [process_buffer, hop, hfr]

theorem process_buffer_typical_effects (s : ShaState)
    (h : s.opMode = OperationMode.Typical) :
    (process_buffer s).2 = [Eff.trig s.first_run] := by
  rcases hfr : s.first_run <;> simp [process_buffer, h, hfr]

theorem process_buffer_typical_first_run (s : ShaState)
    (h : s.opMode = OperationMode.Typical) :
    (process_buffer s).1.first_run = false := by
  rcases hfr : s.first_run <;> simp [process_buffer, h, hfr]

theorem write_data_empty (s : ShaState) (input : List Nat)
    (hbuf : s.buf = []) (ha : s.cursor % 4 = 0)
    (hop : s.opMode = OperationMode.Typical) :
    (write_data s input).1
      = input.drop (if input.length ≤ 64 - s.cursor % 64 + 3
          then input.length else 64 - s.cursor % 64)
    ∧ (write_data s input).2.1.cursor
      = s.cursor + (if input.length ≤ 64 - s.cursor % 64 + 3
          then input.length else 64 - s.cursor % 64)
    ∧ (Eff.trig s.first_run ∈ (write_data s input).2.2
        ↔ 64 - s.cursor % 64 ≤ input.length)
    ∧ (write_data s input).2.1.first_run
      = (if 64 - s.cursor % 64 ≤ input.length then false
          else s.first_run) := by
  have hmclt : s.cursor % 64 < 64 := Nat.mod_lt _ (by norm_num)
  have hmc4 : s.cursor % 64 % 4 = 0 := by
    rw [Nat.mod_mod_of_dvd _ (by norm_num : (4:Nat) ∣ 64)]
    exact ha
  have hb4 : (64 - s.cursor % 64) % 4 = 0 := by omega
  have hbpos : 0 < 64 - s.cursor % 64 := by omega
  obtain ⟨h1, h2, h3, h4, h5, h6, h7⟩ :=
    avcMain_empty s input (s.cursor % 64 / 4) (64 - s.cursor % 64) hb4
  have havc := avc_empty_buf s (s.cursor % 64 / 4) input (64 - s.cursor % 64)
    hbuf hbpos
  simp only [write_data, chunk_length_eq, havc]
  by_cases hB : 64 - s.cursor % 64 ≤ input.length
  · have hB2 : (avcMain s (s.cursor % 64 / 4) input (64 - s.cursor % 64)
        0).1.2 = true := h2.mpr hB
    simp only [hB2, if_true]
    refine ⟨by rw [h1], ?_, ?_, ?_⟩
    · rw [process_buffer_cursor, h4, h3]
    · rw [process_buffer_typical_effects _ (by rw [h6]; exact hop)]
      simp only [List.mem_append, List.mem_singleton]
      constructor
      · intro _; exact hB
      · intro _
        right
        rw [h5]
    · rw [process_buffer_typical_first_run _ (by rw [h6]; exact hop),
        if_pos hB]
  · have hB2 : (avcMain s (s.cursor % 64 / 4) input (64 - s.cursor % 64)
        0).1.2 = false := by
      rcases hv : (avcMain s (s.cursor % 64 / 4) input (64 - s.cursor % 64)
          0).1.2
      · rfl
      · exact absurd (h2.mp hv) hB
    simp only [hB2, Bool.false_eq_true, if_false]
    refine ⟨by rw [h1], ?_, ?_, ?_⟩
    · rw [h4, h3]
    · constructor
      · intro hmem
        obtain ⟨j, v, hjv⟩ := h7 _ hmem
        simp at hjv
      · intro hc
        exact absurd hc hB
    · rw [h5, if_neg hB]

/-- C3 (amended): from any idle, word-aligned session state with an empty
alignment buffer (the checkpoints between `update` calls), `update`
consumes all of the input when its length is at most three bytes beyond
the space left before the block boundary — the up-to-3 excess bytes are
held in the alignment buffer, not stored — and otherwise exactly the
bytes that fit before the boundary; the unconsumed remainder is returned,
the cursor advances by exactly the consumed count, and the block trigger
(`start` if `first_block`, else `continue`, clearing `first_block`) is
issued exactly when the input covers the space left before the
boundary. -/
theorem update_consumption_bound (s : ShaState) (input : List Nat)
    (hb : s.busy = false) (hbuf : s.buf = []) (ha : s.cursor % 4 = 0)
    (hop : s.opMode = OperationMode.Typical) :
    (update s input).1
      = NbRes.ok (input.drop (if input.length ≤ 64 - s.cursor % 64 + 3
          then input.length else 64 - s.cursor % 64))
    ∧ (update s input).2.1.cursor
      = s.cursor + (if input.length ≤ 64 - s.cursor % 64 + 3
          then input.length else 64 - s.cursor % 64)
    ∧ (Eff.trig s.first_run ∈ (update s input).2.2
        ↔ 64 - s.cursor % 64 ≤ input.length)
    ∧ (update s input).2.1.first_run
      = (if 64 - s.cursor % 64 ≤ input.length then false
          else s.first_run) := by
  have hun : update s input
      = (NbRes.ok (write_data { s with finished := false } input).1,
         (write_data { s with finished := false } input).2.1,
         (write_data { s with finished := false } input).2.2) := by
    unfold update
    rw [if_neg]
    simp only [is_busy, hb, Bool.false_eq_true, not_false_eq_true,
      reduceCtorEq]
  have h' := write_data_empty { s with finished := false } input hbuf ha hop
  rw [hun]
  exact ⟨by rw [h'.1], by rw [h'.2.1], h'.2.2.1, h'.2.2.2⟩

theorem finish_skip (s : ShaState) (out : List Nat)
    (hf : s.finished = true) (hb : s.busy = false) :
    finish s out = (.ok (),
      (copyDigestAux s.engineH out 0
        (min (digest_length s.mode) out.length / 4)).1,
      s,
      (copyDigestAux s.engineH out 0
        (min (digest_length s.mode) out.length / 4)).2) := by
  unfold finish
  rw [if_neg (by simp [is_busy, hb])]
  simp [hf]

/-- C5: on a session with `finished` set and the hardware idle, `finish`
returns `Ok` after performing only output-window reads — no block-input
store, no trigger, no busy-wait — and leaves the session untouched, so a
repeated `finish` with no intervening `update` writes exactly the same
digest bytes; a smaller buffer on the repeat call receives exactly the
word-truncated prefix of the same digest. -/
theorem finish_idempotent_recopy (s : ShaState) (out : List Nat)
    (hf : s.finished = true) (hb : s.busy = false) :
    (finish s out).1 = NbRes.ok ()
    ∧ (finish s out).2.2.1 = s
    ∧ (∀ e ∈ (finish s out).2.2.2, ∃ j v, e = Eff.outw j v)
    ∧ (finish (finish s out).2.2.1 out).2.1 = (finish s out).2.1
    ∧ (∀ out2 : List Nat, out2.length ≤ out.length →
        (finish s out2).2.1
          = ((finish s out).2.1).take
              (4 * (min (digest_length s.mode) out2.length / 4))
            ++ out2.drop
              (4 * (min (digest_length s.mode) out2.length / 4))) := by
  have hsk := finish_skip s out hf hb
  refine ⟨by rw [hsk], by rw [hsk], ?_, ?_, ?_⟩
  · rw [hsk]
    exact fun e he => copyDigestAux_effects s.engineH _ 0 out e he
  · have h2 : (finish s out).2.2.1 = s := by rw [hsk]
    rw [h2]
  · intro out2 hlen
    have hA := finish_copy_spec s out hf hb
    have hB := finish_copy_spec s out2 hf hb
    rw [hA, hB]
    have hw2le : min (digest_length s.mode) out2.length / 4
        ≤ min (digest_length s.mode) out.length / 4 :=
      Nat.div_le_div_right (min_le_min (le_refl _) hlen)
    rw [List.take_append_eq_append_take,
      digestSlice_take s.engineH _ _ 0 hw2le]
    have hz : 4 * (min (digest_length s.mode) out2.length / 4)
        - (digestSlice s.engineH 0
            (min (digest_length s.mode) out.length / 4)).length = 0 := by
      rw [digestSlice_length]
      omega
    rw [hz, List.take_zero, List.append_nil]

/-- Witness for `finish_idempotent_recopy` at a concrete finished
session. -/
theorem finish_idempotent_recopy_witness :
    (finish doneState (List.replicate 32 0)).2.2.1 = doneState :=
  (finish_idempotent_recopy doneState (List.replicate 32 0) rfl rfl).2.1

/-- Witness for `finish_digest_copy_word_granular` at a concrete finished
session and a 5-byte buffer. -/
theorem finish_digest_copy_word_granular_witness :
    (finish doneState (List.replicate 5 9)).2.1
      = digestSlice doneState.engineH 0
          (min (digest_length doneState.mode) (List.replicate 5 9).length / 4)
        ++ (List.replicate 5 9).drop
            (4 * (min (digest_length doneState.mode)
              (List.replicate 5 9).length / 4)) :=
  finish_digest_copy_word_granular doneState (List.replicate 5 9) rfl rfl

/-- Witness for `update_consumption_bound` at a fresh session and a
five-byte input. -/
theorem update_consumption_bound_witness :
    (update (Sha.new .SHA256) [1, 2, 3, 4, 5]).2.1.cursor
      = (Sha.new .SHA256).cursor
        + (if ([1, 2, 3, 4, 5] : List Nat).length
            ≤ 64 - (Sha.new .SHA256).cursor % 64 + 3
          then ([1, 2, 3, 4, 5] : List Nat).length
          else 64 - (Sha.new .SHA256).cursor % 64) :=
  (update_consumption_bound (Sha.new .SHA256) [1, 2, 3, 4, 5]
    rfl rfl rfl rfl).2.1

theorem finishProtocol_busyWait (s : ShaState) :
    Eff.busyWait ∈ (finishProtocol s).2 := by
  simp [finishProtocol]

theorem write_data_nil (s : ShaState) (hbuf : s.buf.length < 4) :
    write_data s [] = ([], s, []) := by
  have hmclt : s.cursor % chunk_length s.mode < chunk_length s.mode := by
    rw [chunk_length_eq]
    exact Nat.mod_lt _ (by norm_num)
  have hwb : (chunk_length s.mode - s.cursor % chunk_length s.mode == 0)
      = false := by
    simp only [beq_eq_false_iff_ne, ne_eq]
    omega
  rcases hb : s.buf with _ | ⟨x, xs⟩
  · simp only [write_data, aligned_volatile_copy, hb, List.length_nil,
      ne_eq, not_true_eq_false, if_false, avcMain, List.take_nil,
      List.drop_nil, chunks4, storeChunksGo, Nat.mul_zero, Nat.sub_zero,
      Nat.zero_div, Nat.min_zero, List.length_take, lt_self_iff_false,
      false_and, if_neg (by omega : ¬ chunk_length s.mode
        - s.cursor % chunk_length s.mode ≤ 0), hwb]
    simp
    rw [← hb]
  · have hlen : (x :: xs).length < 4 := by rw [← hb]; exact hbuf
    have hcond : 0 < 4 - (xs.length + 1) := by
      simp only [List.length_cons] at hlen
      omega
    simp only [write_data, aligned_volatile_copy, hb, List.length_cons,
      ne_eq, Nat.succ_ne_zero, not_false_eq_true, if_true, List.take_nil,
      List.drop_nil, List.length_nil, hcond, List.append_nil, Nat.sub_self,
      Nat.add_zero, Bool.false_eq_true, if_false, Nat.sub_zero]
    simp
    rw [← hb]

theorem update_empty (s : ShaState) (hb : s.busy = false)
    (hbuf : s.buf.length < 4) :
    update s [] = (NbRes.ok [], { s with finished := false }, []) := by
  have hun : update s []
      = (NbRes.ok (write_data { s with finished := false } []).1,
         (write_data { s with finished := false } []).2.1,
         (write_data { s with finished := false } []).2.2) := by
    unfold update
    rw [if_neg]
    simp only [is_busy, hb, Bool.false_eq_true, not_false_eq_true,
      reduceCtorEq]
  rw [hun, write_data_nil { s with finished := false } hbuf]

/-- C10: with the hardware idle, `update` on the empty slice returns an
empty remainder, performs no store and no trigger, and leaves cursor,
first-run flag and alignment buffer untouched — but it unconditionally
clears `finished`, so a subsequent `finish` re-runs the padding and
finalization protocol (with its block triggers and busy-waits) instead of
merely re-copying the digest window. -/
theorem empty_update_only_clears_finished (s : ShaState) (out : List Nat)
    (hb : s.busy = false) (hbuf : s.buf.length < 4) :
    update s [] = (NbRes.ok [], { s with finished := false }, [])
    ∧ Eff.busyWait ∈ (finish (update s []).2.1 out).2.2.2 := by
  have h1 := update_empty s hb hbuf
  refine ⟨h1, ?_⟩
  rw [h1]
  show Eff.busyWait ∈ (finish { s with finished := false } out).2.2.2
  unfold finish
  rw [if_neg (by simp [is_busy, hb])]
  simp only [Bool.false_eq_true, if_false, List.mem_append]
  left
  exact finishProtocol_busyWait _

/-- Witness for `empty_update_only_clears_finished` at a fresh session. -/
theorem empty_update_only_clears_finished_witness :
    update (Sha.new .SHA256) []
      = (NbRes.ok [], { Sha.new .SHA256 with finished := false }, []) :=
  (empty_update_only_clears_finished (Sha.new .SHA256) [] rfl
    (by rw [Sha.new]; exact Nat.zero_lt_succ 3)).1


/-- C3: REFUTED as stated.  From a fresh SHA-256 session, `update` with 60
bytes consumes all 60 (cursor 60), leaving 4 bytes of space before the
block boundary; a second `update` with 7 bytes consumes all 7 of them
(empty remainder, cursor 67) — three more than fit before the boundary,
the excess being held in the alignment buffer. -/
theorem update_consumes_past_block_boundary :
    (update (Sha.new .SHA256) (List.replicate 60 97)).2.1.cursor = 60
    ∧ 64 - 60 % 64 = 4
    ∧ (update (update (Sha.new .SHA256) (List.replicate 60 97)).2.1
        (List.replicate 7 98)).1 = NbRes.ok []
    ∧ (update (update (Sha.new .SHA256) (List.replicate 60 97)).2.1
        (List.replicate 7 98)).2.1.cursor = 67 := by decide

/-- C9: REFUTED as stated.  With the SHA-256 digest of `"abc"` latched and
a 5-byte output buffer (filled with 9), `finish` writes only
`min(5, 32) / 4 = 1` word — four bytes — leaving the fifth byte untouched,
not the `min(5, 32) = 5` bytes the claim requires (byte 4 of the digest is
`0x8f`, but the buffer still holds 9 there). -/
theorem finish_copies_fewer_bytes_than_claimed :
    (finish (driverFinal .SHA256 [0x61, 0x62, 0x63] 32).2
        (List.replicate 5 9)).2.1
      = [0xba, 0x78, 0x16, 0xbf, 9]
    ∧ ([0xba, 0x78, 0x16, 0xbf, (9 : Nat)] : List Nat)
      ≠ [0xba, 0x78, 0x16, 0xbf, 0x8f] := by decide

end EspSha
